import Mathlib

/-!
# Verification of `src/analysis/merge_and_save_updated.py`

A shallow embedding of the pandas ETL script `merge_and_save_updated.py`.
Tables are modelled as a list of column names plus row-major cell lists;
cells are dates (year, month, day), nullable integers, decimal numbers,
strings, or missing (`NaN`/`NA`/`NaT`, collapsed into one `na` value).

Decimal numbers are kept as raw integer fractions (`Frac`), mirroring the
exact values produced by `float()` parsing; `Frac.toRat` maps them to `ℚ`
for order/arithmetic statements.  Comparators used by sorting are Bool
valued and defined from integer arithmetic only, so that every pipeline
definition evaluates by kernel reduction on concrete inputs.
-/

/-- An unreduced fraction `num / den`.  Values built by the embedding always
have `den > 0`; `den = 0` is sanitised to `0/1` by `Frac.fix` wherever the
value is interpreted. -/
structure Frac where
  num : ℤ
  den : ℕ
deriving DecidableEq

/-- Sanitise a fraction: a zero denominator is read as the value `0`. -/
def Frac.fix (x : Frac) : Frac := if x.den = 0 then ⟨0, 1⟩ else x

/-- The rational value of a fraction. -/
def Frac.toRat (x : Frac) : ℚ := (x.fix.num : ℚ) / (x.fix.den : ℚ)

/-- Order on fractions by cross multiplication (denominators are positive
after `fix`). -/
def Frac.leB (a b : Frac) : Bool :=
  decide (a.fix.num * (b.fix.den : ℤ) ≤ b.fix.num * (a.fix.den : ℤ))

/-- Round a fraction to the nearest integer, ties to even: the behaviour of
`numpy`/pandas `Series.round(0)`. -/
def Frac.roundHalfEven (x : Frac) : ℤ :=
  let f := x.fix
  let d : ℤ := (f.den : ℤ)
  let fl := f.num / d
  let r2 := 2 * (f.num - fl * d)
  if r2 < d then fl
  else if d < r2 then fl + 1
  else if fl % 2 = 0 then fl else fl + 1

/-- A table cell.  `date` carries `(year, month, day)`.  All pandas missing
markers (`NaN`, `NaT`, `pd.NA`) are collapsed into `na`. -/
inductive Val where
  | na : Val
  | date : ℕ × ℕ × ℕ → Val
  | int : ℤ → Val
  | num : Frac → Val
  | str : String → Val
deriving DecidableEq

/-- Rank used to order cells of distinct kinds; `na` is ranked above every
proper value, which realises `na_position='last'` in every sort. -/
def Val.rank : Val → ℕ
  | .date _ => 0
  | .int _ => 1
  | .num _ => 2
  | .str _ => 3
  | .na => 4

/-- Lexicographic comparison of `(year, month, day)` triples. -/
def dateLeB (a b : ℕ × ℕ × ℕ) : Bool :=
  decide (a.1 < b.1) ||
    (a.1 == b.1 && (decide (a.2.1 < b.2.1) ||
      (a.2.1 == b.2.1 && decide (a.2.2 ≤ b.2.2))))

/-- Character codes of a string (Python strings compare by code point). -/
def strCodes (s : String) : List ℕ := s.data.map Char.toNat

/-- Lexicographic order on code lists. -/
def leCodes : List ℕ → List ℕ → Bool
  | [], _ => true
  | _ :: _, [] => false
  | a :: as, b :: bs => decide (a < b) || (a == b && leCodes as bs)

/-- Same-kind payload comparison (the catch-all arm is never reached with
equal ranks except for `na` against `na`). -/
def Val.payLe : Val → Val → Bool
  | .date x, .date y => dateLeB x y
  | .int m, .int n => decide (m ≤ n)
  | .num p, .num q => p.leB q
  | .str s, .str t => leCodes (strCodes s) (strCodes t)
  | _, _ => true

/-- Total comparison of cells: by rank, then by payload.  Since `na` has the
top rank, missing values sort after every proper value, as pandas does with
`na_position='last'`. -/
def Val.leB (a b : Val) : Bool :=
  decide (a.rank < b.rank) || (a.rank == b.rank && Val.payLe a b)

/-- Lexicographic comparison of equal-length key vectors, as
`sort_values(by=[...])` compares rows. -/
def lexLeVal : List Val → List Val → Bool
  | [], _ => true
  | _ :: _, [] => false
  | a :: as, b :: bs =>
    if a.leB b then (if b.leB a then lexLeVal as bs else true) else false

/-- A pandas `DataFrame`: ordered column names and row-major cells. -/
structure Table where
  names : List String
  rows : List (List Val)
deriving DecidableEq

/-- Value of column `c` in a row (first matching column; `na` when the
column is absent, which models the `NA` padding the script relies on). -/
def rowVal : List String → List Val → String → Val
  | [], _, _ => .na
  | _ :: _, [], _ => .na
  | n :: ns, v :: vs, c => if n = c then v else rowVal ns vs c

/-- The cells of column `c`, or `none` when the column is absent. -/
def Table.col? (t : Table) (c : String) : Option (List Val) :=
  if t.names.contains c then some (t.rows.map (fun r => rowVal t.names r c)) else none

/-- `df.rename(columns={a: b})`: renames every column labelled `a`. -/
def Table.rename (t : Table) (a b : String) : Table :=
  ⟨t.names.map (fun c => if c = a then b else c), t.rows⟩

/-- Apply `f` to the cell of the first column named `nm` in one row. -/
def mapCell (nm : String) (f : Val → Val) : List String → List Val → List Val
  | n :: ns, v :: vs => if n = nm then f v :: vs else v :: mapCell nm f ns vs
  | _, vs => vs

/-- `df[nm] = df[nm].map(f)` on the first column named `nm`. -/
def Table.mapCol (t : Table) (nm : String) (f : Val → Val) : Table :=
  ⟨t.names, t.rows.map (fun r => mapCell nm f t.names r)⟩

/-- `df[nm] = v`: overwrite the column when present, else append it. -/
def Table.setConst (t : Table) (nm : String) (v : Val) : Table :=
  if t.names.contains nm then
    ⟨t.names, t.rows.map (fun r => mapCell nm (fun _ => v) t.names r)⟩
  else
    ⟨t.names ++ [nm], t.rows.map (fun r => r ++ [v])⟩

/-- `df[[c₁, …]]`: column selection; raises `KeyError` on a missing label. -/
def selectCols (t : Table) (cs : List String) : Except String Table :=
  if cs.all (fun c => t.names.contains c) then
    .ok ⟨cs, t.rows.map (fun r => cs.map (fun c => rowVal t.names r c))⟩
  else .error "KeyError"

/-- Lowered character codes of a name, modelling `str.lower()` on the ASCII
names the script compares. -/
def lowerKey (s : String) : List ℕ :=
  s.data.map (fun c => if 65 ≤ c.toNat ∧ c.toNat ≤ 90 then c.toNat + 32 else c.toNat)

/-- `k` starts `l` (code lists). -/
def startsL : List ℕ → List ℕ → Bool
  | [], _ => true
  | _ :: _, [] => false
  | a :: as, b :: bs => a == b && startsL as bs

/-- `k in l` (Python substring test on code lists). -/
def hasSub (k : List ℕ) : List ℕ → Bool
  | [] => k.isEmpty
  | b :: bs => startsL k (b :: bs) || hasSub k bs

/-- `str.strip()` on a column name. -/
def stripName (s : String) : String :=
  ⟨(s.data.dropWhile Char.isWhitespace).reverse.dropWhile Char.isWhitespace |>.reverse⟩

/-- Split a character list at a separator (model of `str.split`). -/
def splitChar (sep : Char) : List Char → List (List Char)
  | [] => [[]]
  | c :: cs =>
    let r := splitChar sep cs
    if c = sep then [] :: r
    else
      match r with
      | [] => [[c]]
      | h :: t => (c :: h) :: t

/-- All characters are decimal digits (and the list is nonempty). -/
def allDigits (l : List Char) : Bool :=
  !l.isEmpty && l.all (fun c => 48 ≤ c.toNat && c.toNat ≤ 57)

/-- Numeric value of a digit list. -/
def digitsVal (l : List Char) : ℕ :=
  l.foldl (fun a c => 10 * a + (c.toNat - 48)) 0

/-- Model of `float()` parsing on `digits` or `digits.digits` (with optional
leading minus handled by the caller): the exact decimal value. -/
def parseDecL (l : List Char) : Option Frac :=
  match splitChar '.' l with
  | [a] => if allDigits a then some ⟨digitsVal a, 1⟩ else none
  | [a, b] =>
      if allDigits a && allDigits b then
        some ⟨digitsVal a * 10 ^ b.length + digitsVal b, 10 ^ b.length⟩
      else none
  | _ => none

/-- Model of `float()` on a string, as used by `pd.to_numeric(errors='coerce')`. -/
def parseDec (s : String) : Option Frac :=
  match s.data with
  | '-' :: rest => (parseDecL rest).map (fun q => ⟨-q.num, q.den⟩)
  | l => parseDecL l

/-- `str.replace(',', '.')` (all occurrences). -/
def commaToDot (s : String) : String :=
  ⟨s.data.map (fun c => if c = ',' then '.' else c)⟩

/-- Model of `pd.to_datetime(⬝, dayfirst=False)` on `a/b/y` components:
the first component is taken as the month whenever it is a valid month;
pandas falls back to day-first only when the first component cannot be a
month.  Returns `(year, month, day)`. -/
def parseMDY (x y z : ℕ) : Option (ℕ × ℕ × ℕ) :=
  if 1 ≤ x ∧ x ≤ 12 ∧ 1 ≤ y ∧ y ≤ 31 then some (z, x, y)
  else if 1 ≤ y ∧ y ≤ 12 ∧ 1 ≤ x ∧ x ≤ 31 then some (z, y, x)
  else none

/-- Date parsing on a `M/D/YYYY` string; anything else is unparseable. -/
def parseDateStr (s : String) : Option (ℕ × ℕ × ℕ) :=
  match splitChar '/' s.data with
  | [a, b, c] =>
      if allDigits a && allDigits b && allDigits c then
        parseMDY (digitsVal a) (digitsVal b) (digitsVal c)
      else none
  | _ => none

/-- `pd.to_datetime(cell, dayfirst=False, errors='coerce')`: dates pass
through, strings are parsed, anything unparseable becomes missing. -/
def parseDateCell : Val → Val
  | .date d => .date d
  | .str s => match parseDateStr s with | some d => .date d | none => .na
  | _ => .na

/-- `str(cell)` as pandas `astype(str)` produces it: `pd.NA` stringifies to
`"<NA>"`.  (Only the string and missing cases are exercised by the script's
sort key; the numeric renderings are best-effort models of `str()`.) -/
def astypeStr : Val → String
  | .na => "<NA>"
  | .str s => s
  | .int n => toString n
  | .num q => toString q.num ++ "/" ++ toString q.den
  | .date (y, m, d) => toString y ++ "-" ++ toString m ++ "-" ++ toString d

/-- `pd.to_numeric(col.astype(str).str.replace(',', '.'), errors='coerce')`
on one cell.  Stringifying an already numeric cell and reparsing it returns
the same value, so numeric cells pass through; missing stringifies to an
unparseable token and stays missing; dates stringify to timestamps, which
`float()` rejects. -/
def coerceNumeric : Val → Val
  | .str s => match parseDec (commaToDot s) with | some q => .num q | none => .na
  | .num q => .num q
  | .int n => .num ⟨n, 1⟩
  | _ => .na

/-- `pd.to_numeric(cell, errors='coerce')` (no comma replacement). -/
def toNumericVal : Val → Option Frac
  | .num q => some q
  | .int n => some ⟨n, 1⟩
  | .str s => parseDec s
  | _ => none

/-- One cell of `pd.to_numeric(col, errors='coerce').round(0).astype('Int64')`. -/
def coerceIntCell (v : Val) : Val :=
  match toNumericVal v with
  | some q => .int q.roundHalfEven
  | none => .na

/-- `candidates` of `find_date_column`. -/
def candidates : List String := ["date", "datum", "Datum", "DATUM"]

/--
```
def find_date_column(df):
    for c in df.columns:
        if c.lower() in [x.lower() for x in candidates]:
            return c
    return None
```
-/
def find_date_column (names : List String) : Option String :=
  names.find? (fun c => (candidates.map lowerKey).contains (lowerKey c))

/--
```
def read_and_normalize(path):
    df = pd.read_csv(path)            -- the read table is the argument here
    date_col = find_date_column(df)
    if date_col is None: raise ValueError(...)
    df[date_col] = pd.to_datetime(df[date_col], dayfirst=False, errors='coerce')
    df = df.rename(columns={date_col: 'date'})
    df = df.rename(columns={c: c.strip() for c in df.columns})
    return df
```
-/
def read_and_normalize (t : Table) : Except String Table :=
  match find_date_column t.names with
  | none => .error "MissingDateColumn"
  | some dc =>
      let t := t.mapCol dc parseDateCell
      let t := t.rename dc "date"
      .ok ⟨t.names.map stripName, t.rows⟩

/--
```
def find_column(df, keywords):
    kws = [k.lower() for k in keywords]
    for c in df.columns:
        lc = c.lower()
        for k in kws:
            if k in lc: return c
    return None
```
-/
def find_column (names : List String) (keywords : List String) : Option String :=
  names.find? (fun c => keywords.any (fun k => hasSub (lowerKey k) (lowerKey c)))

/-- The `# id` block of `standardize_sales_df`. -/
def stdIdStep (t : Table) : Table :=
  match find_column t.names ["id"] with
  | some c => if c ≠ "id" then t.rename c "id" else t
  | none => t

/-- The `# warengruppe` block of `standardize_sales_df`.  Note: unlike `id`
and `umsatz`, no column is created when nothing matches. -/
def stdWarenStep (t : Table) : Table :=
  match find_column t.names ["wareng", "warengruppe"] with
  | some c => if c ≠ "warengruppe" then t.rename c "warengruppe" else t
  | none => t

/-- The `# umsatz` block of `standardize_sales_df`: rename a matching column
and coerce it numerically, or create an all-missing `umsatz` column. -/
def stdUmsatzStep (t : Table) : Table :=
  match find_column t.names ["umsatz"] with
  | some c =>
      let t := if c ≠ "umsatz" then t.rename c "umsatz" else t
      t.mapCol "umsatz" coerceNumeric
  | none => t.setConst "umsatz" .na

/-- The `# ensure id exists` block. -/
def stdEnsureIdStep (t : Table) : Table :=
  if t.names.contains "id" then t else t.setConst "id" .na

/-- `standardize_sales_df` (lines 40–65): id, warengruppe, umsatz blocks and
a final whitespace strip of all column names. -/
def standardize_sales_df (t : Table) : Table :=
  let t := stdIdStep t
  let t := stdWarenStep t
  let t := stdUmsatzStep t
  let t := stdEnsureIdStep t
  ⟨t.names.map stripName, t.rows⟩

/-- `desired_cols` of the continuation block. -/
def desired_cols : List String := ["date", "id", "warengruppe", "umsatz"]

/-- `replace('', pd.NA)` on one cell. -/
def normEmpty (v : Val) : Val := if v = .str "" then .na else v

/-- The rows contributed by one source to `pd.concat`: padding missing
`desired_cols` with `NA`, selecting exactly `desired_cols`, and normalising
empty strings — padding-then-selecting equals selecting with an `NA`
default. -/
def contribRows (t : Table) : List (List Val) :=
  t.rows.map (fun r => desired_cols.map (fun c => normEmpty (rowVal t.names r c)))

/-- The concatenated, re-parsed row pool before the continuation sort (the
`pd.concat` result with `date` passed through `to_datetime` again). -/
def appendPool (u t : Table) : List (List Val) :=
  (contribRows u ++ contribRows t).map
    (fun r => match r with | d :: rest => parseDateCell d :: rest | [] => [])

/-- Sort key of the continuation sort: `['date', '_id_sort']` where
`_id_sort = id.astype(str).fillna('')` — `astype(str)` leaves no missing
values (missing renders as `"<NA>"`), so the `fillna('')` is a no-op. -/
def c4Key (r : List Val) : List Val :=
  [r.getD 0 .na, .str (astypeStr (r.getD 1 .na))]

/-- Row order of the continuation sort. -/
def rowLeC4 (r s : List Val) : Prop := lexLeVal (c4Key r) (c4Key s) = true

instance : DecidableRel rowLeC4 := fun _ _ => instDecidableEqBool _ _

/-- The continuation block of `main` (lines 97–119): standardised primary
and continuation tables are padded to `desired_cols`, empty strings become
missing, rows are concatenated, dates re-parsed, and the result sorted by
`(date, id-as-text)` with `na_position='last'`.  (`sort_values` is modelled
by an insertion sort; the claims do not depend on the order of ties.) -/
def continuationAppend (u t : Table) : Table :=
  ⟨desired_cols, List.insertionSort rowLeC4 (appendPool u t)⟩

/-- `merged[c].fillna(0).astype('Int64')` on one cell (the column holds only
integers and missing values at its call sites). -/
def fillnaIntCell (v : Val) : Val :=
  match v with
  | .na => .int 0
  | .int n => .int n
  | .num q => .int (Int.tdiv q.fix.num (q.fix.den : ℤ))
  | _ => .na

/-- `merged[c] = merged[c].fillna(0).astype('Int64')`; raises `KeyError`
when the column is missing. -/
def fillnaInt (t : Table) (c : String) : Except String Table :=
  if t.names.contains c then .ok (t.mapCol c fillnaIntCell) else .error "KeyError"

/-- The join contribution of one left row: its matches on `key` extended by
the non-key right columns, or a single `NA`-padded row when unmatched. -/
def joinBlock (l r : Table) (key : String) (lr : List Val) : List (List Val) :=
  let rKeep := r.names.filter (fun c => c ≠ key)
  match r.rows.filter (fun rr => rowVal r.names rr key = rowVal l.names lr key) with
  | [] => [lr ++ rKeep.map (fun _ => Val.na)]
  | ms => ms.map (fun rr => lr ++ rKeep.map (fun c => rowVal r.names rr c))

/-- `df.merge(r, on=key, how='left')`: every left row is kept; its matches
on `key` (at most one per right row) contribute the non-key right columns,
an unmatched row receives missing for all of them.  Overlapping non-key
column labels get the pandas `_x`/`_y` suffixes. -/
def leftJoin (l r : Table) (key : String) : Table :=
  let rKeep := r.names.filter (fun c => c ≠ key)
  let overlap := fun c => c ≠ key && l.names.contains c && rKeep.contains c
  let lNames := l.names.map (fun c => if overlap c then c ++ "_x" else c)
  let rNames := rKeep.map (fun c => if overlap c then c ++ "_y" else c)
  ⟨lNames ++ rNames, (l.rows.map (joinBlock l r key)).flatten⟩

/-- The date-key cells of a table, in row order. -/
def keyVals (t : Table) (key : String) : List Val :=
  t.rows.map (fun r => rowVal t.names r key)

/-- The merge cascade of `main` (lines 127–134): weather, event days, school
holidays, public holidays, all left joins on `date`. -/
def mergeAll (sales w k s p : Table) : Table :=
  leftJoin (leftJoin (leftJoin (leftJoin sales w "date") k "date") s "date") p "date"

/-- `int_cols` of `main`. -/
def int_cols : List String := ["Bewoelkung", "Windgeschwindigkeit", "KielerWoche"]

/-- The `int_cols` loop of `main` (lines 140–144). -/
def coerceIntCols (t : Table) : Table :=
  int_cols.foldl (fun t c => if t.names.contains c then t.mapCol c coerceIntCell else t) t

/-- `sort_keys = [k for k in ['date','warengruppe','id'] if k in merged.columns]`. -/
def sortKeysMain (names : List String) : List String :=
  ["date", "warengruppe", "id"].filter (fun c => names.contains c)

/-- The sort key of one row under the final row sort. -/
def mainKey (names : List String) (r : List Val) : List Val :=
  (sortKeysMain names).map (fun c => rowVal names r c)

/-- Row order of the final `sort_values(by=sort_keys, na_position='last')`. -/
def rowLeMain (names : List String) (r s : List Val) : Prop :=
  lexLeVal (mainKey names r) (mainKey names s) = true

instance (names : List String) : DecidableRel (rowLeMain names) :=
  fun _ _ => instDecidableEqBool _ _

/-- The final row sort of `main` (lines 146–149).  When `sort_keys` is empty
the script skips the sort; the model's comparator is then constantly true
and the insertion sort returns the list unchanged, which agrees. -/
def sortRowsMain (names : List String) (rows : List (List Val)) : List (List Val) :=
  List.insertionSort (rowLeMain names) rows

/-- `preferred` of `main`. -/
def preferred : List String :=
  ["date", "warengruppe", "id", "umsatz",
   "Bewoelkung", "Temperatur", "Windgeschwindigkeit", "Wettercode",
   "KielerWoche", "school_holiday", "public_holiday"]

/-- `cols_order` of `main` (lines 151–156). -/
def reorderCols (names : List String) : List String :=
  preferred.filter (fun c => names.contains c) ++
    names.filter (fun c => !preferred.contains c)

/-- `merged = merged[cols_order]`. -/
def reorderTable (t : Table) : Table :=
  ⟨reorderCols t.names,
   t.rows.map (fun r => (reorderCols t.names).map (fun c => rowVal t.names r c))⟩

/-- School-holiday preparation (lines 87–88): `school['school_holiday'] = 1`
then restriction to `{date, school_holiday}`. -/
def prepSchool (t : Table) : Except String Table :=
  selectCols (t.setConst "school_holiday" (.int 1)) ["date", "school_holiday"]

/-- Public-holiday preparation (lines 91–92): rename `is_holiday` to
`public_holiday` then restrict to `{date, public_holiday}`. -/
def prepPublic (t : Table) : Except String Table :=
  selectCols (t.rename "is_holiday" "public_holiday") ["date", "public_holiday"]

/-- A file read: an absent file (`none`) is a fatal `IOFailure`, a present
file is read and normalised. -/
def readOpt : Option Table → Except String Table
  | none => .error "IOFailure"
  | some t => read_and_normalize t

/-- `main` (lines 68–162, up to the CSV write): umsatz, wetter and kiwo are
required reads; the two holiday files are read unconditionally (there is no
existence check, unlike `test.csv`); sales are standardised, optionally
extended by the continuation file, re-coerced numerically, merged, holiday
flags zero-filled, selected columns integer-coerced, rows sorted and
columns reordered. -/
def mainPipeline (umsatzT wetterT kiwoT : Table)
    (testOpt schoolOpt publicOpt : Option Table) : Except String Table := do
  let umsatz ← read_and_normalize umsatzT
  let wetter ← read_and_normalize wetterT
  let kiwo ← read_and_normalize kiwoT
  let school ← readOpt schoolOpt
  let pub ← readOpt publicOpt
  let school ← prepSchool school
  let pub ← prepPublic pub
  let umsatz := standardize_sales_df umsatz
  let umsatz ← match testOpt with
    | none => pure umsatz
    | some testT => do
        let testDf ← read_and_normalize testT
        pure (continuationAppend umsatz (standardize_sales_df testDf))
  let umsatz := if umsatz.names.contains "umsatz" then
      umsatz.mapCol "umsatz" coerceNumeric
    else umsatz.setConst "umsatz" .na
  let merged := mergeAll umsatz wetter kiwo school pub
  let merged ← fillnaInt merged "school_holiday"
  let merged ← fillnaInt merged "public_holiday"
  let merged := coerceIntCols merged
  let merged := ⟨merged.names, sortRowsMain merged.names merged.rows⟩
  pure (reorderTable merged)

/-- Whether a run succeeded. -/
def runOk (e : Except String Table) : Bool :=
  match e with
  | .ok _ => true
  | .error _ => false

/-- Column extraction from a run result. -/
def runCol (e : Except String Table) (c : String) : Option (List Val) :=
  match e with
  | .ok t => t.col? c
  | .error _ => none

/-- Column names of a run result. -/
def runNames (e : Except String Table) : Option (List String) :=
  match e with
  | .ok t => some t.names
  | .error _ => none

/-! ## Order infrastructure: the row comparators are total preorders -/

theorem leCodes_total : ∀ a b : List ℕ, leCodes a b = true ∨ leCodes b a = true := by
  intro a
  induction a with
  | nil => intro b; left; rfl
  | cons x xs ih =>
    intro b
    cases b with
    | nil => right; rfl
    | cons y ys =>
      simp only [leCodes, Bool.or_eq_true, Bool.and_eq_true, decide_eq_true_eq, beq_iff_eq]
      rcases Nat.lt_trichotomy x y with h | h | h
      · exact Or.inl (Or.inl h)
      · rcases ih ys with h' | h'
        · exact Or.inl (Or.inr ⟨h, h'⟩)
        · exact Or.inr (Or.inr ⟨h.symm, h'⟩)
      · exact Or.inr (Or.inl h)

theorem leCodes_trans :
    ∀ a b c : List ℕ, leCodes a b = true → leCodes b c = true → leCodes a c = true := by
  intro a
  induction a with
  | nil => intro b c _ _; rfl
  | cons x xs ih =>
    intro b c hab hbc
    cases b with
    | nil => simp [leCodes] at hab
    | cons y ys =>
      cases c with
      | nil => simp [leCodes] at hbc
      | cons z zs =>
        simp only [leCodes, Bool.or_eq_true, Bool.and_eq_true, decide_eq_true_eq,
          beq_iff_eq] at hab hbc ⊢
        rcases hab with h1 | ⟨h1, h1'⟩
        · rcases hbc with h2 | ⟨h2, _⟩
          · exact Or.inl (h1.trans h2)
          · exact Or.inl (h2 ▸ h1)
        · rcases hbc with h2 | ⟨h2, h2'⟩
          · exact Or.inl (h1 ▸ h2)
          · exact Or.inr ⟨h1.trans h2, ih ys zs h1' h2'⟩

theorem dateLeB_total (a b : ℕ × ℕ × ℕ) : dateLeB a b = true ∨ dateLeB b a = true := by
  obtain ⟨a1, a2, a3⟩ := a
  obtain ⟨b1, b2, b3⟩ := b
  simp only [dateLeB, Bool.or_eq_true, Bool.and_eq_true, decide_eq_true_eq, beq_iff_eq]
  omega

theorem dateLeB_trans (a b c : ℕ × ℕ × ℕ)
    (h1 : dateLeB a b = true) (h2 : dateLeB b c = true) : dateLeB a c = true := by
  obtain ⟨a1, a2, a3⟩ := a
  obtain ⟨b1, b2, b3⟩ := b
  obtain ⟨c1, c2, c3⟩ := c
  simp only [dateLeB, Bool.or_eq_true, Bool.and_eq_true, decide_eq_true_eq,
    beq_iff_eq] at h1 h2 ⊢
  omega

theorem Frac.fix_den_pos (x : Frac) : 0 < x.fix.den := by
  unfold Frac.fix
  split
  · exact Nat.one_pos
  · omega

theorem fracLe_total (a b : Frac) : a.leB b = true ∨ b.leB a = true := by
  simp only [Frac.leB, decide_eq_true_eq]
  exact Int.le_total _ _

theorem fracLe_trans (a b c : Frac)
    (h1 : a.leB b = true) (h2 : b.leB c = true) : a.leB c = true := by
  simp only [Frac.leB, decide_eq_true_eq] at h1 h2 ⊢
  have pa : (0 : ℤ) < (a.fix.den : ℤ) := by exact_mod_cast a.fix_den_pos
  have pb : (0 : ℤ) < (b.fix.den : ℤ) := by exact_mod_cast b.fix_den_pos
  have pc : (0 : ℤ) < (c.fix.den : ℤ) := by exact_mod_cast c.fix_den_pos
  have h1' := mul_le_mul_of_nonneg_right h1 pc.le
  have h2' := mul_le_mul_of_nonneg_right h2 pa.le
  have h3 : a.fix.num * (c.fix.den : ℤ) * (b.fix.den : ℤ) ≤
      c.fix.num * (a.fix.den : ℤ) * (b.fix.den : ℤ) := by nlinarith
  exact le_of_mul_le_mul_right h3 pb

theorem Val.payLe_total (a b : Val) (h : a.rank = b.rank) :
    a.payLe b = true ∨ b.payLe a = true := by
  cases a <;> cases b <;> simp_all [Val.rank, Val.payLe] <;>
    first
      | exact dateLeB_total _ _
      | exact Int.le_total _ _
      | exact fracLe_total _ _
      | exact leCodes_total _ _

theorem Val.payLe_trans (a b c : Val) (hab : a.rank = b.rank) (hbc : b.rank = c.rank)
    (h1 : a.payLe b = true) (h2 : b.payLe c = true) : a.payLe c = true := by
  cases a <;> cases b <;> cases c <;> simp_all [Val.rank, Val.payLe] <;>
    first
      | omega
      | exact dateLeB_trans _ _ _ (by assumption) (by assumption)
      | exact fracLe_trans _ _ _ (by assumption) (by assumption)
      | exact leCodes_trans _ _ _ (by assumption) (by assumption)

theorem Val.leB_eq_true_iff (a b : Val) :
    a.leB b = true ↔ a.rank < b.rank ∨ (a.rank = b.rank ∧ a.payLe b = true) := by
  simp [Val.leB]

theorem Val.leB_total (a b : Val) : a.leB b = true ∨ b.leB a = true := by
  rw [Val.leB_eq_true_iff, Val.leB_eq_true_iff]
  rcases Nat.lt_trichotomy a.rank b.rank with h | h | h
  · exact Or.inl (Or.inl h)
  · rcases Val.payLe_total a b h with h' | h'
    · exact Or.inl (Or.inr ⟨h, h'⟩)
    · exact Or.inr (Or.inr ⟨h.symm, h'⟩)
  · exact Or.inr (Or.inl h)

theorem Val.leB_trans (a b c : Val)
    (h1 : a.leB b = true) (h2 : b.leB c = true) : a.leB c = true := by
  rw [Val.leB_eq_true_iff] at h1 h2 ⊢
  rcases h1 with h1 | ⟨h1, h1'⟩
  · rcases h2 with h2 | ⟨h2, _⟩
    · exact Or.inl (h1.trans h2)
    · exact Or.inl (h2 ▸ h1)
  · rcases h2 with h2 | ⟨h2, h2'⟩
    · exact Or.inl (h1 ▸ h2)
    · exact Or.inr ⟨h1.trans h2, Val.payLe_trans a b c h1 h2 h1' h2'⟩

theorem Val.rank_le_four (v : Val) : v.rank ≤ 4 := by cases v <;> simp [Val.rank]

theorem Val.rank_eq_four_iff (v : Val) : v.rank = 4 ↔ v = .na := by
  cases v <;> simp [Val.rank]

theorem Val.leB_na_left {v : Val} (h : Val.leB .na v = true) : v = .na := by
  rw [Val.leB_eq_true_iff] at h
  have h4 : Val.rank .na = 4 := rfl
  rcases h with h | ⟨h, _⟩
  · rw [h4] at h
    have := v.rank_le_four
    omega
  · rw [h4] at h
    exact (v.rank_eq_four_iff).mp h.symm

theorem lexLeVal_total : ∀ a b : List Val, lexLeVal a b = true ∨ lexLeVal b a = true := by
  intro a
  induction a with
  | nil => intro b; left; rfl
  | cons x xs ih =>
    intro b
    cases b with
    | nil => right; rfl
    | cons y ys =>
      simp only [lexLeVal]
      by_cases hxy : x.leB y = true <;> by_cases hyx : y.leB x = true <;>
        simp [hxy, hyx]
      · exact ih ys
      · rcases Val.leB_total x y with h | h
        · exact absurd h hxy
        · exact absurd h hyx

theorem lexLeVal_trans :
    ∀ a b c : List Val, lexLeVal a b = true → lexLeVal b c = true →
      lexLeVal a c = true := by
  intro a
  induction a with
  | nil => intro b c _ _; rfl
  | cons x xs ih =>
    intro b c hab hbc
    cases b with
    | nil => simp [lexLeVal] at hab
    | cons y ys =>
      cases c with
      | nil => simp [lexLeVal] at hbc
      | cons z zs =>
        simp only [lexLeVal] at hab hbc ⊢
        by_cases hxy : x.leB y = true
        · by_cases hyz : y.leB z = true
          · have hxz : x.leB z = true := Val.leB_trans x y z hxy hyz
            simp only [hxy, hyz, if_true] at hab hbc
            simp only [hxz, if_true]
            by_cases hyx : y.leB x = true
            · by_cases hzy : z.leB y = true
              · simp only [hyx, hzy, if_true] at hab hbc
                by_cases hzx : z.leB x = true
                · simp [hzx, ih ys zs hab hbc]
                · simp [hzx]
              · by_cases hzx : z.leB x = true
                · exact absurd (Val.leB_trans z x y hzx hxy) hzy
                · simp [hzx]
            · by_cases hzx : z.leB x = true
              · exact absurd (Val.leB_trans y z x hyz hzx) hyx
              · simp [hzx]
          · simp [hyz] at hbc
        · simp [hxy] at hab

theorem lexLeVal_head {a b : Val} {as bs : List Val}
    (h : lexLeVal (a :: as) (b :: bs) = true) : a.leB b = true := by
  simp only [lexLeVal] at h
  by_cases hab : a.leB b = true
  · exact hab
  · simp [hab] at h

/-! ## Table infrastructure lemmas -/

theorem contains_iff {α : Type} [BEq α] [LawfulBEq α] (l : List α) (a : α) :
    l.contains a = true ↔ a ∈ l :=
  List.elem_iff

theorem rowVal_tabulate (f : String → Val) :
    ∀ (ns : List String) (c : String), c ∈ ns → rowVal ns (ns.map f) c = f c := by
  intro ns
  induction ns with
  | nil => intro c hc; cases hc
  | cons n ns ih =>
    intro c hc
    by_cases h : n = c
    · simp [rowVal, h]
    · rcases List.mem_cons.mp hc with h' | h'
      · exact absurd h'.symm h
      · simp [rowVal, h, ih c h']

theorem rowVal_not_mem :
    ∀ (ns : List String) (r : List Val) (c : String), c ∉ ns → rowVal ns r c = .na := by
  intro ns
  induction ns with
  | nil => intro r c _; cases r <;> rfl
  | cons n ns ih =>
    intro r c hc
    cases r with
    | nil => rfl
    | cons v vs =>
      have hn : n ≠ c := fun h => hc (h ▸ List.mem_cons_self n ns)
      simp [rowVal, hn, ih vs c (fun h => hc (List.mem_cons_of_mem n h))]

theorem mapCell_length (nm : String) (f : Val → Val) :
    ∀ (ns : List String) (r : List Val), (mapCell nm f ns r).length = r.length := by
  intro ns
  induction ns with
  | nil => intro r; rfl
  | cons n ns ih =>
    intro r
    cases r with
    | nil => rfl
    | cons v vs =>
      by_cases h : n = nm <;> simp [mapCell, h, ih vs]

theorem rowVal_mapCell_ne (nm c : String) (f : Val → Val) (hne : nm ≠ c) :
    ∀ (ns : List String) (r : List Val), rowVal ns (mapCell nm f ns r) c = rowVal ns r c := by
  intro ns
  induction ns with
  | nil => intro r; rfl
  | cons n ns ih =>
    intro r
    cases r with
    | nil => rfl
    | cons v vs =>
      by_cases h : n = nm
      · have hnc : n ≠ c := h ▸ hne
        simp [mapCell, h, rowVal, hnc, hne]
      · by_cases h' : n = c <;>
          simp [mapCell, h, rowVal, h', ih vs, hne, Ne.symm hne]

theorem rowVal_mapCell_eq (c : String) (f : Val → Val) :
    ∀ (ns : List String) (r : List Val), c ∈ ns → ns.length ≤ r.length →
      rowVal ns (mapCell c f ns r) c = f (rowVal ns r c) := by
  intro ns
  induction ns with
  | nil => intro r hc _; cases hc
  | cons n ns ih =>
    intro r hc hlen
    cases r with
    | nil => simp at hlen
    | cons v vs =>
      by_cases h : n = c
      · simp [mapCell, h, rowVal]
      · rcases List.mem_cons.mp hc with h' | h'
        · exact absurd h'.symm h
        · have : ns.length ≤ vs.length := by simpa using hlen
          simp [mapCell, h, rowVal, ih vs h' this]

theorem col?_mapCol_ne (t : Table) (a c : String) (f : Val → Val) (h : a ≠ c) :
    (t.mapCol a f).col? c = t.col? c := by
  unfold Table.col? Table.mapCol
  simp only
  split
  · congr 1
    rw [List.map_map]
    apply List.map_congr_left
    intro r _
    exact rowVal_mapCell_ne a c f h t.names r
  · rfl

theorem col?_mapCol_eq (t : Table) (c : String) (f : Val → Val)
    (hc : c ∈ t.names) (hlen : ∀ r ∈ t.rows, t.names.length ≤ r.length) :
    (t.mapCol c f).col? c = some ((t.rows.map (fun r => rowVal t.names r c)).map f) := by
  unfold Table.col? Table.mapCol
  simp only
  rw [if_pos ((contains_iff _ _).mpr hc)]
  congr 1
  rw [List.map_map, List.map_map]
  apply List.map_congr_left
  intro r hr
  exact rowVal_mapCell_eq c f t.names r hc (hlen r hr)

theorem setConst_names (t : Table) (nm : String) (v : Val) :
    (t.setConst nm v).names =
      if t.names.contains nm then t.names else t.names ++ [nm] := by
  unfold Table.setConst
  split <;> simp_all

theorem mem_setConst_self (t : Table) (nm : String) (v : Val) :
    nm ∈ (t.setConst nm v).names := by
  rw [setConst_names]
  split
  · exact (contains_iff _ _).mp (by assumption)
  · simp

theorem mem_setConst_of_mem (t : Table) {c : String} (nm : String) (v : Val)
    (h : c ∈ t.names) : c ∈ (t.setConst nm v).names := by
  rw [setConst_names]
  split
  · exact h
  · exact List.mem_append_left _ h

theorem mem_rename_target {t : Table} {a : String} (b : String) (h : a ∈ t.names) :
    b ∈ (t.rename a b).names := by
  unfold Table.rename
  simpa using ⟨a, h, by simp⟩

theorem mem_rename_of_ne {t : Table} {a c : String} (b : String)
    (hc : c ∈ t.names) (hca : c ≠ a) : c ∈ (t.rename a b).names := by
  unfold Table.rename
  simpa using ⟨c, hc, by simp [hca]⟩

/-! ## Left-join lemmas -/

theorem sum_map_ones {α : Type} (g : α → ℕ) (xs : List α) (h : ∀ x ∈ xs, g x = 1) :
    (xs.map g).sum = xs.length := by
  induction xs with
  | nil => rfl
  | cons a rs ih =>
    simp only [List.map_cons, List.sum_cons, List.length_cons,
      h a (List.mem_cons_self a rs)]
    rw [ih (fun x hx => h x (List.mem_cons_of_mem a hx))]
    omega

theorem filter_key_length_le_one {α β : Type} [DecidableEq β] (f : α → β) (k : β) :
    ∀ rows : List α, (rows.map f).Nodup →
      (rows.filter (fun a => decide (f a = k))).length ≤ 1 := by
  intro rows
  induction rows with
  | nil => intro _; simp
  | cons a rs ih =>
    intro h
    rw [List.map_cons, List.nodup_cons] at h
    obtain ⟨hna, hnd⟩ := h
    by_cases hk : f a = k
    · have hnil : rs.filter (fun x => decide (f x = k)) = [] := by
        rw [List.filter_eq_nil_iff]
        intro x hx
        simp only [decide_eq_true_eq]
        intro hfx
        have : f x ∈ rs.map f := List.mem_map_of_mem f hx
        rw [hfx, ← hk] at this
        exact hna this
      simp [List.filter_cons, hk, hnil]
    · simp only [List.filter_cons, hk, decide_eq_true_eq, if_false]
      exact ih hnd

theorem joinBlock_length (l r : Table) (key : String) (hN : (keyVals r key).Nodup)
    (lr : List Val) : (joinBlock l r key lr).length = 1 := by
  unfold keyVals at hN
  have hle := filter_key_length_le_one (fun rr => rowVal r.names rr key)
    (rowVal l.names lr key) r.rows hN
  unfold joinBlock
  cases hfl : r.rows.filter
      (fun rr => decide (rowVal r.names rr key = rowVal l.names lr key)) with
  | nil => simp [hfl]
  | cons m ms =>
    rw [hfl] at hle
    simp only [List.length_cons] at hle
    have hms : ms = [] := List.length_eq_zero.mp (by omega)
    simp [hfl, hms]

theorem leftJoin_length (l r : Table) (key : String) (hN : (keyVals r key).Nodup) :
    (leftJoin l r key).rows.length = l.rows.length := by
  unfold leftJoin
  simp only
  rw [List.length_flatten, List.map_map]
  exact sum_map_ones _ _ (fun lr _ => joinBlock_length l r key hN lr)

theorem leftJoin_unmatched (l r : Table) (key : String) {lr : List Val}
    (hmem : lr ∈ l.rows) (hnm : rowVal l.names lr key ∉ keyVals r key) :
    lr ++ List.replicate (r.names.filter (fun c => c ≠ key)).length Val.na
      ∈ (leftJoin l r key).rows := by
  unfold keyVals at hnm
  have hfl : r.rows.filter
      (fun rr => decide (rowVal r.names rr key = rowVal l.names lr key)) = [] := by
    rw [List.filter_eq_nil_iff]
    intro rr hrr
    simp only [decide_eq_true_eq]
    intro heq
    exact hnm (heq ▸ List.mem_map_of_mem _ hrr)
  have hblock : joinBlock l r key lr =
      [lr ++ (r.names.filter (fun c => c ≠ key)).map (fun _ => Val.na)] := by
    unfold joinBlock
    rw [hfl]
  unfold leftJoin
  simp only
  rw [List.mem_flatten]
  refine ⟨joinBlock l r key lr, List.mem_map_of_mem _ hmem, ?_⟩
  rw [hblock]
  simp [List.map_const']

theorem leftJoin_names_disjoint (l r : Table) (key : String)
    (h : ∀ c ∈ r.names, c ≠ key → c ∉ l.names) :
    (leftJoin l r key).names = l.names ++ r.names.filter (fun c => c ≠ key) := by
  unfold leftJoin
  simp only
  congr 1
  · conv_rhs => rw [← List.map_id l.names]
    apply List.map_congr_left
    intro c hc
    simp only [id]
    split
    · next hcond =>
        simp only [Bool.and_eq_true, decide_eq_true_eq] at hcond
        obtain ⟨⟨hk, _⟩, hcr⟩ := hcond
        have hmem := List.mem_filter.mp ((contains_iff _ _).mp hcr)
        exact absurd hc (h c hmem.1 (by simpa using hmem.2))
    · rfl
  · conv_rhs => rw [← List.map_id (r.names.filter (fun c => c ≠ key))]
    apply List.map_congr_left
    intro c hc
    simp only [id]
    split
    · next hcond =>
        simp only [Bool.and_eq_true, decide_eq_true_eq] at hcond
        obtain ⟨⟨_, hcl⟩, _⟩ := hcond
        have hmem := List.mem_filter.mp hc
        exact absurd ((contains_iff _ _).mp hcl) (h c hmem.1 (by simpa using hmem.2))
    · rfl

/-! ## Loader lemmas -/

theorem isDateName_iff (c : String) :
    ((candidates.map lowerKey).contains (lowerKey c) = true) ↔
      (lowerKey c = lowerKey "date" ∨ lowerKey c = lowerKey "datum") := by
  rw [contains_iff]
  have h1 : lowerKey "Datum" = lowerKey "datum" := by decide
  have h2 : lowerKey "DATUM" = lowerKey "datum" := by decide
  simp [candidates, h1, h2]

theorem find_date_column_none_iff (names : List String) :
    find_date_column names = none ↔
      ∀ c ∈ names, ¬(lowerKey c = lowerKey "date" ∨ lowerKey c = lowerKey "datum") := by
  unfold find_date_column
  rw [List.find?_eq_none]
  constructor
  · intro h c hc
    exact fun hd => h c hc ((isDateName_iff c).mpr hd)
  · intro h c hc
    exact fun hd => h c hc ((isDateName_iff c).mp hd)

theorem find_date_column_some {names : List String} {c : String}
    (h : find_date_column names = some c) :
    c ∈ names ∧ (lowerKey c = lowerKey "date" ∨ lowerKey c = lowerKey "datum") := by
  unfold find_date_column at h
  have hp := List.find?_some
    (p := fun c => (List.map lowerKey candidates).contains (lowerKey c)) h
  exact ⟨List.mem_of_find?_eq_some h, (isDateName_iff c).mp hp⟩

theorem read_and_normalize_ok (t : Table)
    (h : ∃ c ∈ t.names, lowerKey c = lowerKey "date" ∨ lowerKey c = lowerKey "datum") :
    ∃ t', read_and_normalize t = .ok t' ∧ "date" ∈ t'.names := by
  obtain ⟨c, hc, hd⟩ := h
  cases hfd : find_date_column t.names with
  | none =>
      rw [find_date_column_none_iff] at hfd
      exact absurd hd (hfd c hc)
  | some dc =>
      have hdc : dc ∈ t.names := (find_date_column_some hfd).1
      refine ⟨⟨((t.mapCol dc parseDateCell).rename dc "date").names.map stripName,
        ((t.mapCol dc parseDateCell).rename dc "date").rows⟩, ?_, ?_⟩
      · unfold read_and_normalize
        rw [hfd]
      · have h1 : "date" ∈ ((t.mapCol dc parseDateCell).rename dc "date").names :=
          mem_rename_target "date" (show dc ∈ (t.mapCol dc parseDateCell).names from hdc)
        have h2 : stripName "date" = "date" := by decide
        exact h2 ▸ List.mem_map_of_mem stripName h1

theorem read_and_normalize_error_iff (t : Table) :
    read_and_normalize t = .error "MissingDateColumn" ↔
      ∀ c ∈ t.names, ¬(lowerKey c = lowerKey "date" ∨ lowerKey c = lowerKey "datum") := by
  rw [← find_date_column_none_iff]
  constructor
  · intro h
    cases hfd : find_date_column t.names with
    | none => rfl
    | some dc =>
        unfold read_and_normalize at h
        rw [hfd] at h
        simp at h
  · intro h
    unfold read_and_normalize
    rw [h]

/-! ## Numeric-coercion lemmas -/

theorem commaToDot_idem (s : String) : commaToDot (commaToDot s) = commaToDot s := by
  unfold commaToDot
  congr 1
  show List.map _ (List.map _ s.data) = _
  rw [List.map_map]
  apply List.map_congr_left
  intro c _
  by_cases h : c = ',' <;> simp [Function.comp, h]

/-! ## Standardizer membership lemmas -/

theorem find_column_some {names kws : List String} {c : String}
    (h : find_column names kws = some c) :
    c ∈ names ∧ (kws.any (fun k => hasSub (lowerKey k) (lowerKey c))) = true := by
  unfold find_column at h
  have hp := List.find?_some
    (p := fun c => kws.any (fun k => hasSub (lowerKey k) (lowerKey c))) h
  exact ⟨List.mem_of_find?_eq_some h, hp⟩

theorem find_column_none {names kws : List String} (h : find_column names kws = none) :
    ∀ c ∈ names, (kws.any (fun k => hasSub (lowerKey k) (lowerKey c))) = false := by
  unfold find_column at h
  rw [List.find?_eq_none] at h
  intro c hc
  simpa using h c hc

theorem mem_id_stdEnsureIdStep (t : Table) : "id" ∈ (stdEnsureIdStep t).names := by
  unfold stdEnsureIdStep
  split
  · next h => exact (contains_iff _ _).mp h
  · exact mem_setConst_self t "id" .na

theorem mem_stdEnsureIdStep_of_mem {c : String} (t : Table) (h : c ∈ t.names) :
    c ∈ (stdEnsureIdStep t).names := by
  unfold stdEnsureIdStep
  split
  · exact h
  · exact mem_setConst_of_mem t "id" .na h

theorem mem_umsatz_stdUmsatzStep (t : Table) : "umsatz" ∈ (stdUmsatzStep t).names := by
  unfold stdUmsatzStep
  cases hfc : find_column t.names ["umsatz"] with
  | none => exact mem_setConst_self t "umsatz" .na
  | some c =>
      simp only
      have : "umsatz" ∈ (if c ≠ "umsatz" then t.rename c "umsatz" else t).names := by
        split
        · exact mem_rename_target "umsatz" (find_column_some hfc).1
        · next hne =>
            have hcu : c = "umsatz" := not_ne_iff.mp hne
            exact hcu ▸ (find_column_some hfc).1
      exact this

theorem mem_waren_stdWarenStep (t : Table)
    (h : ∃ c ∈ t.names, hasSub (lowerKey "wareng") (lowerKey c) = true) :
    "warengruppe" ∈ (stdWarenStep t).names := by
  unfold stdWarenStep
  cases hfc : find_column t.names ["wareng", "warengruppe"] with
  | none =>
      obtain ⟨c, hc, hsub⟩ := h
      have := find_column_none hfc c hc
      simp [hsub] at this
  | some c =>
      simp only
      split
      · exact mem_rename_target "warengruppe" (find_column_some hfc).1
      · next hne =>
          have hcw : c = "warengruppe" := not_ne_iff.mp hne
          exact hcw ▸ (find_column_some hfc).1

theorem mem_stdUmsatzStep_of_mem_waren (t : Table) (h : "warengruppe" ∈ t.names) :
    "warengruppe" ∈ (stdUmsatzStep t).names := by
  unfold stdUmsatzStep
  cases hfc : find_column t.names ["umsatz"] with
  | none => exact mem_setConst_of_mem t "umsatz" .na h
  | some c =>
      simp only
      have hcw : c ≠ "warengruppe" := by
        intro hw
        have hs := (find_column_some hfc).2
        rw [hw] at hs
        simp only [List.any_cons, List.any_nil, Bool.or_false] at hs
        exact absurd hs (by decide)
      have : "warengruppe" ∈ (if c ≠ "umsatz" then t.rename c "umsatz" else t).names := by
        split
        · exact mem_rename_of_ne "umsatz" h (Ne.symm hcw)
        · exact h
      exact this

/-! ## Rounding lemmas -/

theorem absR_helper (a d n : ℤ) (hd : 0 < d)
    (h1 : -d ≤ 2 * (a - n * d)) (h2 : 2 * (a - n * d) ≤ d) :
    |(a : ℚ) / ((d : ℤ) : ℚ) - (n : ℚ)| ≤ 1 / 2 := by
  have hdq : (0 : ℚ) < ((d : ℤ) : ℚ) := by exact_mod_cast hd
  have hrw : (a : ℚ) / ((d : ℤ) : ℚ) - (n : ℚ) =
      ((a : ℚ) - (n : ℚ) * ((d : ℤ) : ℚ)) / ((d : ℤ) : ℚ) := by
    field_simp
    ring
  rw [hrw, abs_div, abs_of_pos hdq, div_le_iff₀ hdq]
  have hq1 : -((d : ℤ) : ℚ) ≤ 2 * ((a : ℚ) - (n : ℚ) * ((d : ℤ) : ℚ)) := by
    exact_mod_cast h1
  have hq2 : 2 * ((a : ℚ) - (n : ℚ) * ((d : ℤ) : ℚ)) ≤ ((d : ℤ) : ℚ) := by
    exact_mod_cast h2
  rw [abs_le]
  constructor <;> linarith

theorem roundHalfEven_nearest (x : Frac) :
    |x.toRat - (x.roundHalfEven : ℚ)| ≤ 1 / 2 := by
  have hd0 : (0 : ℤ) < (x.fix.den : ℤ) := by exact_mod_cast x.fix_den_pos
  have hmod := Int.ediv_add_emod x.fix.num (x.fix.den : ℤ)
  have hr0 : 0 ≤ x.fix.num % (x.fix.den : ℤ) := Int.emod_nonneg _ (by omega)
  have hrd : x.fix.num % (x.fix.den : ℤ) < (x.fix.den : ℤ) :=
    Int.emod_lt_of_pos _ hd0
  have hcm : (x.fix.den : ℤ) * (x.fix.num / (x.fix.den : ℤ)) =
      (x.fix.num / (x.fix.den : ℤ)) * (x.fix.den : ℤ) := mul_comm _ _
  have htr : x.toRat = (x.fix.num : ℚ) / (((x.fix.den : ℤ)) : ℚ) := by
    unfold Frac.toRat
    push_cast
    ring
  rw [htr]
  unfold Frac.roundHalfEven
  simp only
  split_ifs with hb1 hb2 hb3 <;>
    · apply absR_helper _ _ _ hd0 <;> linarith

/-! ## Sorted-suffix lemma: missing keys sink to the end -/

theorem sorted_na_head (k : List Val → List Val) {l : List (List Val)}
    (hs : List.Sorted (fun r s => lexLeVal (k r) (k s) = true) l)
    {i j : Fin l.length} (hij : i < j) {t : List Val}
    (hi : k (l.get i) = Val.na :: t) :
    ∃ u, k (l.get j) = Val.na :: u := by
  have hrel := List.Sorted.rel_get_of_lt hs hij
  cases hkj : k (l.get j) with
  | nil =>
      rw [hi, hkj] at hrel
      simp [lexLeVal] at hrel
  | cons b u =>
      rw [hi, hkj] at hrel
      have hb := Val.leB_na_left (lexLeVal_head hrel)
      exact ⟨u, by rw [hb]⟩

theorem sortKeysMain_eq {names : List String} (h : "date" ∈ names) :
    sortKeysMain names =
      "date" :: (["warengruppe", "id"].filter (fun c => names.contains c)) := by
  unfold sortKeysMain
  have hc : names.contains "date" = true := (contains_iff names "date").mpr h
  rw [List.filter_cons]
  simp only [hc, if_true]

/-! ## Pipeline-level lemmas -/

theorem mainPipeline_school_absent (u w k : Table) (tOpt pOpt : Option Table) :
    runOk (mainPipeline u w k tOpt none pOpt) = false := by
  unfold mainPipeline
  cases h1 : read_and_normalize u with
  | error e => simp [runOk, Bind.bind, Except.bind]
  | ok u' =>
    cases h2 : read_and_normalize w with
    | error e => simp [runOk, Bind.bind, Except.bind, h2]
    | ok w' =>
      cases h3 : read_and_normalize k with
      | error e => simp [runOk, Bind.bind, Except.bind, h2, h3]
      | ok k' => simp [runOk, Bind.bind, Except.bind, h2, h3, readOpt]

theorem mainPipeline_public_absent (u w k : Table) (tOpt sOpt : Option Table) :
    runOk (mainPipeline u w k tOpt sOpt none) = false := by
  unfold mainPipeline
  cases h1 : read_and_normalize u with
  | error e => simp [runOk, Bind.bind, Except.bind]
  | ok u' =>
    cases h2 : read_and_normalize w with
    | error e => simp [runOk, Bind.bind, Except.bind, h2]
    | ok w' =>
      cases h3 : read_and_normalize k with
      | error e => simp [runOk, Bind.bind, Except.bind, h2, h3]
      | ok k' =>
        cases h4 : readOpt sOpt with
        | error e => simp [runOk, Bind.bind, Except.bind, h2, h3, h4]
        | ok s' => simp [runOk, Bind.bind, Except.bind, h2, h3, h4, readOpt]

theorem prepPublic_ok_iff (t : Table) (hd : "date" ∈ t.names) :
    runOk (prepPublic t) = true ↔
      ("is_holiday" ∈ t.names ∨ "public_holiday" ∈ t.names) := by
  have hdate : "date" ∈ (t.rename "is_holiday" "public_holiday").names :=
    mem_rename_of_ne "public_holiday" hd (by decide)
  unfold prepPublic selectCols
  constructor
  · intro h
    by_cases hall : (["date", "public_holiday"].all
        (fun c => (t.rename "is_holiday" "public_holiday").names.contains c)) = true
    · have hmem : "public_holiday" ∈ (t.rename "is_holiday" "public_holiday").names := by
        have := (List.all_eq_true.mp hall) "public_holiday" (by simp)
        exact (contains_iff _ _).mp this
      unfold Table.rename at hmem
      rw [List.mem_map] at hmem
      obtain ⟨x, hx, hxe⟩ := hmem
      by_cases hxi : x = "is_holiday"
      · exact Or.inl (hxi ▸ hx)
      · rw [if_neg hxi] at hxe
        exact Or.inr (hxe ▸ hx)
    · rw [if_neg hall] at h
      simp [runOk] at h
  · intro h
    have hmem : "public_holiday" ∈ (t.rename "is_holiday" "public_holiday").names := by
      rcases h with h | h
      · exact mem_rename_target _ h
      · exact mem_rename_of_ne _ h (by decide)
    have hall : (["date", "public_holiday"].all
        (fun c => (t.rename "is_holiday" "public_holiday").names.contains c)) = true := by
      rw [List.all_eq_true]
      intro c hc
      simp only [List.mem_cons, List.not_mem_nil, or_false] at hc
      rcases hc with rfl | rfl
      · exact (contains_iff _ _).mpr hdate
      · exact (contains_iff _ _).mpr hmem
    rw [if_pos hall]
    rfl

theorem prepPublic_names (t : Table) {t' : Table} (h : prepPublic t = .ok t') :
    t'.names = ["date", "public_holiday"] := by
  unfold prepPublic selectCols at h
  split at h
  · cases h
    rfl
  · cases h

/-! ## Integer-coercion fold lemmas -/

theorem coerceFold_names : ∀ (cs : List String) (t : Table),
    (cs.foldl (fun t c => if t.names.contains c then t.mapCol c coerceIntCell else t)
      t).names = t.names := by
  intro cs
  induction cs with
  | nil => intro t; rfl
  | cons a cs ih =>
      intro t
      rw [List.foldl_cons]
      by_cases h : t.names.contains a = true
      · rw [if_pos h]
        exact ih _
      · rw [if_neg h]
        exact ih t

theorem coerceFold_col_notmem : ∀ (cs : List String) (t : Table) (c : String), c ∉ cs →
    (cs.foldl (fun t c => if t.names.contains c then t.mapCol c coerceIntCell else t)
      t).col? c = t.col? c := by
  intro cs
  induction cs with
  | nil => intro t c _; rfl
  | cons a cs ih =>
      intro t c hc
      have hac : a ≠ c := fun h => hc (h ▸ List.mem_cons_self a cs)
      have hcs : c ∉ cs := fun h => hc (List.mem_cons_of_mem a h)
      rw [List.foldl_cons]
      by_cases h : t.names.contains a = true
      · rw [if_pos h, ih _ c hcs, col?_mapCol_ne t a c coerceIntCell hac]
      · rw [if_neg h, ih t c hcs]

theorem coerceFold_col_mem : ∀ (cs : List String) (t : Table) (c : String),
    c ∈ cs → cs.Nodup → c ∈ t.names → (∀ r ∈ t.rows, t.names.length ≤ r.length) →
    (cs.foldl (fun t c => if t.names.contains c then t.mapCol c coerceIntCell else t)
      t).col? c = some ((t.rows.map (fun r => rowVal t.names r c)).map coerceIntCell) := by
  intro cs
  induction cs with
  | nil => intro t c hc _ _ _; cases hc
  | cons a cs ih =>
      intro t c hc hnd hcn hlen
      rw [List.nodup_cons] at hnd
      rw [List.foldl_cons]
      rcases List.mem_cons.mp hc with rfl | hcs
      · rw [if_pos ((contains_iff _ _).mpr hcn)]
        rw [coerceFold_col_notmem cs _ c hnd.1]
        exact col?_mapCol_eq t c coerceIntCell hcn hlen
      · have hac : a ≠ c := fun he => hnd.1 (he ▸ hcs)
        by_cases h : t.names.contains a = true
        · rw [if_pos h]
          have hlen' : ∀ r ∈ (t.mapCol a coerceIntCell).rows,
              (t.mapCol a coerceIntCell).names.length ≤ r.length := by
            intro r hr
            unfold Table.mapCol at hr
            rw [List.mem_map] at hr
            obtain ⟨r0, hr0, rfl⟩ := hr
            rw [mapCell_length]
            exact hlen r0 hr0
          have hih := ih (t.mapCol a coerceIntCell) c hcs hnd.2 hcn hlen'
          have hread : (t.mapCol a coerceIntCell).rows.map
              (fun r => rowVal (t.mapCol a coerceIntCell).names r c)
              = t.rows.map (fun r => rowVal t.names r c) := by
            unfold Table.mapCol
            simp only
            rw [List.map_map]
            apply List.map_congr_left
            intro r _
            exact rowVal_mapCell_ne a c coerceIntCell hac t.names r
          rw [hih, hread]
        · rw [if_neg h]
          exact ih t c hcs hnd.2 hcn hlen

/-! ## Claim theorems -/

/-- C1 (corrected).  `standardize_sales_df` always guarantees the canonical
columns `id` and `umsatz` (created and filled with missing when no source
column matches), and a source column matching the `wareng` keyword at the
category step is renamed to `warengruppe`; but — contrary to the claim —
when no source column matches, `warengruppe` is not created (see the
counterexample theorem). -/
theorem standardize_sales_guarantees (t : Table) :
    "id" ∈ (standardize_sales_df t).names
    ∧ "umsatz" ∈ (standardize_sales_df t).names
    ∧ ((∃ c ∈ (stdIdStep t).names, hasSub (lowerKey "wareng") (lowerKey c) = true) →
        "warengruppe" ∈ (standardize_sales_df t).names) := by
  refine ⟨?_, ?_, ?_⟩
  · have h1 : "id" ∈ (stdEnsureIdStep (stdUmsatzStep (stdWarenStep (stdIdStep t)))).names :=
      mem_id_stdEnsureIdStep _
    have h2 : stripName "id" = "id" := by decide
    exact h2 ▸ List.mem_map_of_mem stripName h1
  · have h1 : "umsatz" ∈ (stdUmsatzStep (stdWarenStep (stdIdStep t))).names :=
      mem_umsatz_stdUmsatzStep _
    have h2 := mem_stdEnsureIdStep_of_mem _ h1
    have h3 : stripName "umsatz" = "umsatz" := by decide
    exact h3 ▸ List.mem_map_of_mem stripName h2
  · intro h
    have h1 : "warengruppe" ∈ (stdWarenStep (stdIdStep t)).names :=
      mem_waren_stdWarenStep _ h
    have h2 := mem_stdUmsatzStep_of_mem_waren _ h1
    have h3 := mem_stdEnsureIdStep_of_mem _ h2
    have h4 : stripName "warengruppe" = "warengruppe" := by decide
    exact h4 ▸ List.mem_map_of_mem stripName h3

/-- C1 witness: a sales table with a matching category column gets all three
canonical columns. -/
theorem standardize_sales_guarantees_witness :
    "id" ∈ (standardize_sales_df
        ⟨["date", "Warengruppe"], [[Val.date (2019, 1, 1), Val.int 1]]⟩).names
    ∧ "warengruppe" ∈ (standardize_sales_df
        ⟨["date", "Warengruppe"], [[Val.date (2019, 1, 1), Val.int 1]]⟩).names :=
  ⟨(standardize_sales_guarantees ⟨["date", "Warengruppe"],
      [[Val.date (2019, 1, 1), Val.int 1]]⟩).1,
   (standardize_sales_guarantees ⟨["date", "Warengruppe"],
      [[Val.date (2019, 1, 1), Val.int 1]]⟩).2.2
     ⟨"Warengruppe", by decide, by decide⟩⟩

/-- C1 counterexample: on a table with only a `date` column the standardizer
creates `umsatz` and `id` (missing-filled) but no `warengruppe` column,
refuting the claim that all three canonical columns are always present. -/
theorem standardize_sales_counterexample :
    standardize_sales_df ⟨["date"], [[Val.date (2019, 1, 1)]]⟩ =
      ⟨["date", "umsatz", "id"], [[Val.date (2019, 1, 1), Val.na, Val.na]]⟩
    ∧ "warengruppe" ∉ (standardize_sales_df ⟨["date"], [[Val.date (2019, 1, 1)]]⟩).names :=
  ⟨by decide, by decide⟩

/-- C2 (confirmed).  The merge cascade preserves the sales row count
whenever every auxiliary table has at most one row per date (pairwise
distinct date keys); in a single left join an unmatched sales row survives
with its own cells followed by missing values for every auxiliary column,
and when the auxiliary table shares only the `date` column the output
columns are the sales columns followed by the auxiliary non-key columns. -/
theorem merger_left_join_cardinality :
    (∀ sales w k s p : Table,
        (keyVals w "date").Nodup → (keyVals k "date").Nodup →
        (keyVals s "date").Nodup → (keyVals p "date").Nodup →
        (mergeAll sales w k s p).rows.length = sales.rows.length)
    ∧ (∀ (l r : Table) (lr : List Val), lr ∈ l.rows →
        rowVal l.names lr "date" ∉ keyVals r "date" →
        lr ++ List.replicate (r.names.filter (fun c => c ≠ "date")).length Val.na
          ∈ (leftJoin l r "date").rows)
    ∧ (∀ l r : Table, (∀ c ∈ r.names, c ≠ "date" → c ∉ l.names) →
        (leftJoin l r "date").names = l.names ++ r.names.filter (fun c => c ≠ "date")) := by
  refine ⟨?_, ?_, ?_⟩
  · intro sales w k s p hw hk hs hp
    unfold mergeAll
    rw [leftJoin_length _ _ _ hp, leftJoin_length _ _ _ hs,
      leftJoin_length _ _ _ hk, leftJoin_length _ _ _ hw]
  · intro l r lr hmem hnm
    exact leftJoin_unmatched l r "date" hmem hnm
  · intro l r h
    exact leftJoin_names_disjoint l r "date" h

/-- C2 witness: a two-row sales table joined against four one-row auxiliary
tables keeps two rows, and the unmatched sales row receives missing. -/
theorem merger_left_join_cardinality_witness :
    (mergeAll ⟨["date"], [[Val.date (2019, 1, 1)], [Val.date (2019, 1, 2)]]⟩
        ⟨["date", "Temperatur"], [[Val.date (2019, 1, 1), Val.num ⟨3, 1⟩]]⟩
        ⟨["date", "KielerWoche"], [[Val.date (2019, 1, 1), Val.int 1]]⟩
        ⟨["date", "school_holiday"], [[Val.date (2019, 1, 1), Val.int 1]]⟩
        ⟨["date", "public_holiday"], [[Val.date (2019, 1, 1), Val.int 1]]⟩).rows.length
      = (⟨["date"], [[Val.date (2019, 1, 1)], [Val.date (2019, 1, 2)]]⟩ : Table).rows.length
    ∧ [Val.date (2019, 1, 2)] ++
        List.replicate
          ((⟨["date", "Temperatur"], [[Val.date (2019, 1, 1), Val.num ⟨3, 1⟩]]⟩ :
            Table).names.filter (fun c => c ≠ "date")).length Val.na
        ∈ (leftJoin ⟨["date"], [[Val.date (2019, 1, 1)], [Val.date (2019, 1, 2)]]⟩
            ⟨["date", "Temperatur"], [[Val.date (2019, 1, 1), Val.num ⟨3, 1⟩]]⟩
            "date").rows := by
  constructor
  · exact merger_left_join_cardinality.1
      ⟨["date"], [[Val.date (2019, 1, 1)], [Val.date (2019, 1, 2)]]⟩
      ⟨["date", "Temperatur"], [[Val.date (2019, 1, 1), Val.num ⟨3, 1⟩]]⟩
      ⟨["date", "KielerWoche"], [[Val.date (2019, 1, 1), Val.int 1]]⟩
      ⟨["date", "school_holiday"], [[Val.date (2019, 1, 1), Val.int 1]]⟩
      ⟨["date", "public_holiday"], [[Val.date (2019, 1, 1), Val.int 1]]⟩
      (by decide) (by decide) (by decide) (by decide)
  · exact merger_left_join_cardinality.2.1
      ⟨["date"], [[Val.date (2019, 1, 1)], [Val.date (2019, 1, 2)]]⟩
      ⟨["date", "Temperatur"], [[Val.date (2019, 1, 1), Val.num ⟨3, 1⟩]]⟩
      [Val.date (2019, 1, 2)] (by decide) (by decide)

/-- C8 (confirmed).  Revenue coercion treats comma and dot decimal
separators equivalently: replacing commas with dots first never changes the
result, `"12,50"` and `"12.50"` parse to the same value, that value is the
rational 12.50, and any unparseable value becomes missing. -/
theorem umsatz_coercion_comma_dot :
    (∀ s : String, coerceNumeric (.str s) = coerceNumeric (.str (commaToDot s)))
    ∧ coerceNumeric (.str "12,50") = .num ⟨1250, 100⟩
    ∧ coerceNumeric (.str "12.50") = .num ⟨1250, 100⟩
    ∧ Frac.toRat ⟨1250, 100⟩ = 25 / 2
    ∧ (∀ s : String, parseDec (commaToDot s) = none → coerceNumeric (.str s) = .na) := by
  refine ⟨?_, by decide, by decide, by norm_num [Frac.toRat, Frac.fix], ?_⟩
  · intro s
    simp only [coerceNumeric]
    rw [commaToDot_idem]
  · intro s h
    simp only [coerceNumeric]
    rw [h]

/-- C8 witness: an unparseable revenue cell becomes missing, and comma
replacement is inert on an already-replaced string. -/
theorem umsatz_coercion_witness :
    coerceNumeric (.str "abc") = Val.na
    ∧ coerceNumeric (.str "1,5") = coerceNumeric (.str (commaToDot "1,5")) :=
  ⟨umsatz_coercion_comma_dot.2.2.2.2 "abc" (by decide),
   umsatz_coercion_comma_dot.1 "1,5"⟩

/-- C9 (confirmed).  Each selected column (`Bewoelkung`,
`Windgeschwindigkeit`, `KielerWoche`) present in the merged table is mapped
cell-wise by numeric parsing, half-even rounding and nullable-integer
conversion: every resulting cell is an integer or missing, a parseable cell
becomes the rounded integer, an unparseable cell becomes missing, and the
rounded integer is within 1/2 of the parsed value (a nearest integer). -/
theorem int_cols_coercion (t : Table) (c : String) (hc : c ∈ int_cols)
    (hn : c ∈ t.names) (hlen : ∀ r ∈ t.rows, t.names.length ≤ r.length) :
    (coerceIntCols t).names = t.names
    ∧ (coerceIntCols t).col? c
        = some ((t.rows.map (fun r => rowVal t.names r c)).map coerceIntCell)
    ∧ (∀ v : Val, coerceIntCell v = .na ∨ ∃ n : ℤ, coerceIntCell v = .int n)
    ∧ (∀ (v : Val) (q : Frac), toNumericVal v = some q →
        coerceIntCell v = .int q.roundHalfEven)
    ∧ (∀ v : Val, toNumericVal v = none → coerceIntCell v = .na)
    ∧ (∀ q : Frac, |q.toRat - (q.roundHalfEven : ℚ)| ≤ 1 / 2) := by
  refine ⟨coerceFold_names int_cols t,
    coerceFold_col_mem int_cols t c hc (by decide) hn hlen, ?_, ?_, ?_,
    roundHalfEven_nearest⟩
  · intro v
    cases h : toNumericVal v with
    | none => exact Or.inl (by simp [coerceIntCell, h])
    | some q => exact Or.inr ⟨q.roundHalfEven, by simp [coerceIntCell, h]⟩
  · intro v q h
    simp [coerceIntCell, h]
  · intro v h
    simp [coerceIntCell, h]

/-- C9 witness: the event-day column parses `"1"` to the integer 1. -/
theorem int_cols_coercion_witness :
    (coerceIntCols ⟨["date", "KielerWoche"],
      [[Val.date (2019, 1, 1), Val.str "1"]]⟩).col? "KielerWoche"
      = some [Val.int 1] := by
  have h := (int_cols_coercion
    ⟨["date", "KielerWoche"], [[Val.date (2019, 1, 1), Val.str "1"]]⟩
    "KielerWoche" (by decide) (by decide) (by decide)).2.1
  rw [h]
  decide

/-- C10 (corrected).  The public-holiday restriction succeeds iff the table
contains `is_holiday` or already contains `public_holiday` (the rename maps
`is_holiday` to `public_holiday`; selection then requires `date` and
`public_holiday`); a successful restriction always produces exactly the
columns `date, public_holiday`.  Contrary to the claim, a table lacking
`is_holiday` but already carrying `public_holiday` does not abort the run
(see the counterexample theorem). -/
theorem public_holiday_preparation (t : Table) (hd : "date" ∈ t.names) :
    (runOk (prepPublic t) = true ↔
      ("is_holiday" ∈ t.names ∨ "public_holiday" ∈ t.names))
    ∧ (∀ t' : Table, prepPublic t = .ok t' →
        t'.names = ["date", "public_holiday"]) :=
  ⟨prepPublic_ok_iff t hd, fun _ h => prepPublic_names t h⟩

/-- C10 witness: a table with an `is_holiday` column passes the
restriction. -/
theorem public_holiday_preparation_witness :
    runOk (prepPublic ⟨["date", "is_holiday"],
      [[Val.date (2019, 1, 1), Val.int 1]]⟩) = true :=
  (public_holiday_preparation
    ⟨["date", "is_holiday"], [[Val.date (2019, 1, 1), Val.int 1]]⟩
    (by decide)).1.mpr (Or.inl (by decide))

/-- C10 counterexample: a full pipeline run whose public-holiday table has
no `is_holiday` column (but a `public_holiday` column) succeeds, refuting
both that the run succeeds only with `is_holiday` present and that the
restriction raises an error for every table lacking it. -/
theorem public_holiday_counterexample :
    runOk (mainPipeline
      ⟨["date", "umsatz"], [[Val.str "1/2/2019", Val.str "5,0"],
        [Val.str "1/3/2019", Val.str "7"]]⟩
      ⟨["date", "Temperatur"], [[Val.str "1/2/2019", Val.str "3.2"]]⟩
      ⟨["date", "KielerWoche"], [[Val.str "1/2/2019", Val.str "1"]]⟩
      none
      (some ⟨["date"], [[Val.str "1/2/2019"]]⟩)
      (some ⟨["date", "public_holiday"], [[Val.str "1/3/2019", Val.int 1]]⟩)) = true
    ∧ "is_holiday" ∉ (⟨["date", "public_holiday"],
        [[Val.str "1/3/2019", Val.int 1]]⟩ : Table).names :=
  ⟨by decide, by decide⟩

/-- C3 (corrected).  The holiday inputs are not optional: the script reads
both holiday files unconditionally (no existence check, unlike the
continuation file), so a run with either holiday file absent fails instead
of succeeding with the holiday columns omitted.  When both are present the
two restricted left joins happen and missing holiday flags are filled with
0, as evaluated on a concrete run. -/
theorem holiday_inputs_required :
    (∀ (u w k : Table) (tOpt pOpt : Option Table),
        runOk (mainPipeline u w k tOpt none pOpt) = false)
    ∧ (∀ (u w k : Table) (tOpt sOpt : Option Table),
        runOk (mainPipeline u w k tOpt sOpt none) = false)
    ∧ runNames (mainPipeline
        ⟨["date", "umsatz"], [[Val.str "1/2/2019", Val.str "5,0"],
          [Val.str "1/3/2019", Val.str "7"]]⟩
        ⟨["date", "Temperatur"], [[Val.str "1/2/2019", Val.str "3.2"]]⟩
        ⟨["date", "KielerWoche"], [[Val.str "1/2/2019", Val.str "1"]]⟩
        none
        (some ⟨["date"], [[Val.str "1/2/2019"]]⟩)
        (some ⟨["date", "is_holiday"], [[Val.str "1/3/2019", Val.int 1]]⟩))
        = some ["date", "id", "umsatz", "Temperatur", "KielerWoche",
            "school_holiday", "public_holiday"]
    ∧ runCol (mainPipeline
        ⟨["date", "umsatz"], [[Val.str "1/2/2019", Val.str "5,0"],
          [Val.str "1/3/2019", Val.str "7"]]⟩
        ⟨["date", "Temperatur"], [[Val.str "1/2/2019", Val.str "3.2"]]⟩
        ⟨["date", "KielerWoche"], [[Val.str "1/2/2019", Val.str "1"]]⟩
        none
        (some ⟨["date"], [[Val.str "1/2/2019"]]⟩)
        (some ⟨["date", "is_holiday"], [[Val.str "1/3/2019", Val.int 1]]⟩))
        "school_holiday" = some [Val.int 1, Val.int 0]
    ∧ runCol (mainPipeline
        ⟨["date", "umsatz"], [[Val.str "1/2/2019", Val.str "5,0"],
          [Val.str "1/3/2019", Val.str "7"]]⟩
        ⟨["date", "Temperatur"], [[Val.str "1/2/2019", Val.str "3.2"]]⟩
        ⟨["date", "KielerWoche"], [[Val.str "1/2/2019", Val.str "1"]]⟩
        none
        (some ⟨["date"], [[Val.str "1/2/2019"]]⟩)
        (some ⟨["date", "is_holiday"], [[Val.str "1/3/2019", Val.int 1]]⟩))
        "public_holiday" = some [Val.int 0, Val.int 1] :=
  ⟨mainPipeline_school_absent, mainPipeline_public_absent,
   by decide, by decide, by decide⟩

/-- C3 counterexample: with both holiday files absent the run fails with an
error, refuting the claim that it still succeeds with holiday columns
omitted. -/
theorem holiday_absent_counterexample :
    runOk (mainPipeline
      ⟨["date", "umsatz"], [[Val.str "1/2/2019", Val.str "5,0"],
        [Val.str "1/3/2019", Val.str "7"]]⟩
      ⟨["date", "Temperatur"], [[Val.str "1/2/2019", Val.str "3.2"]]⟩
      ⟨["date", "KielerWoche"], [[Val.str "1/2/2019", Val.str "1"]]⟩
      none none none) = false := by
  decide

/-- C4 (corrected).  The continuation append produces exactly the four
canonical columns with both sources padded/selected to that schema and
empty strings normalised to missing, and the rows are a permutation of the
combined pool, sorted under the script's `(date, id-as-text)` order in
which missing dates sink to the end.  Contrary to the claim, a missing id
does not sort last: `astype(str)` renders it as the text `"<NA>"`, which
orders before uppercase letters (see the counterexample theorem). -/
theorem continuation_append_schema (u t : Table) :
    (continuationAppend u t).names = desired_cols
    ∧ (continuationAppend u t).rows.Perm (appendPool u t)
    ∧ List.Sorted rowLeC4 (continuationAppend u t).rows
    ∧ (∀ (i j : Fin (continuationAppend u t).rows.length), i < j →
        ((continuationAppend u t).rows.get i).getD 0 .na = .na →
        ((continuationAppend u t).rows.get j).getD 0 .na = .na) := by
  haveI : IsTotal (List Val) rowLeC4 := ⟨fun _ _ => lexLeVal_total _ _⟩
  haveI : IsTrans (List Val) rowLeC4 := ⟨fun _ _ _ => lexLeVal_trans _ _ _⟩
  refine ⟨rfl, List.perm_insertionSort _ _, List.sorted_insertionSort _ _, ?_⟩
  intro i j hij hi
  have hs : List.Sorted rowLeC4 (continuationAppend u t).rows :=
    List.sorted_insertionSort _ _
  have hki : c4Key ((continuationAppend u t).rows.get i) =
      Val.na :: [Val.str (astypeStr
        (((continuationAppend u t).rows.get i).getD 1 .na))] := by
    unfold c4Key
    rw [hi]
  obtain ⟨u', hu'⟩ := sorted_na_head c4Key hs hij hki
  unfold c4Key at hu'
  exact (List.cons_eq_cons.mp hu').1

/-- C4 witness: on two one-row sources with missing dates the result keeps
the canonical schema and the second sorted row has a missing date. -/
theorem continuation_append_schema_witness :
    (continuationAppend ⟨["date"], [[Val.na]]⟩ ⟨["date"], [[Val.na]]⟩).names
      = desired_cols
    ∧ ((continuationAppend ⟨["date"], [[Val.na]]⟩
        ⟨["date"], [[Val.na]]⟩).rows.get ⟨1, by decide⟩).getD 0 .na = .na := by
  refine ⟨(continuation_append_schema ⟨["date"], [[Val.na]]⟩ ⟨["date"], [[Val.na]]⟩).1, ?_⟩
  exact (continuation_append_schema ⟨["date"], [[Val.na]]⟩ ⟨["date"], [[Val.na]]⟩).2.2.2
    ⟨0, by decide⟩ ⟨1, by decide⟩ (by decide) (by decide)

/-- C4 counterexample: a primary row with id `"Z"` and a padded continuation
row with missing id share a date; after the sort the missing id comes
first, not last, because it is rendered as the text `"<NA>"`. -/
theorem continuation_append_counterexample :
    (continuationAppend
        ⟨["date", "id", "warengruppe", "umsatz"],
          [[Val.date (2019, 1, 1), Val.str "Z", Val.int 1, Val.num ⟨5, 1⟩]]⟩
        ⟨["date", "warengruppe", "umsatz"],
          [[Val.date (2019, 1, 1), Val.int 2, Val.num ⟨3, 1⟩]]⟩).rows =
      [[Val.date (2019, 1, 1), Val.na, Val.int 2, Val.num ⟨3, 1⟩],
       [Val.date (2019, 1, 1), Val.str "Z", Val.int 1, Val.num ⟨5, 1⟩]]
    ∧ rowVal desired_cols ((continuationAppend
        ⟨["date", "id", "warengruppe", "umsatz"],
          [[Val.date (2019, 1, 1), Val.str "Z", Val.int 1, Val.num ⟨5, 1⟩]]⟩
        ⟨["date", "warengruppe", "umsatz"],
          [[Val.date (2019, 1, 1), Val.int 2, Val.num ⟨3, 1⟩]]⟩).rows.getD 0 [])
        "id" = Val.na
    ∧ rowVal desired_cols ((continuationAppend
        ⟨["date", "id", "warengruppe", "umsatz"],
          [[Val.date (2019, 1, 1), Val.str "Z", Val.int 1, Val.num ⟨5, 1⟩]]⟩
        ⟨["date", "warengruppe", "umsatz"],
          [[Val.date (2019, 1, 1), Val.int 2, Val.num ⟨3, 1⟩]]⟩).rows.getD 1 [])
        "id" = Val.str "Z" := by
  refine ⟨by decide, by decide, by decide⟩

/-- C5 (confirmed).  The Loader's date-column detection matches exactly the
case-insensitive names `date`/`datum`: it returns nothing iff no column
matches (and then `read_and_normalize` fails with the missing-date-column
error), any returned column is a matching member, the first matching column
wins, and for any table with a matching column the Loader succeeds and the
result has a column named `date`. -/
theorem loader_date_detection :
    (∀ names : List String, find_date_column names = none ↔
        ∀ c ∈ names, ¬(lowerKey c = lowerKey "date" ∨ lowerKey c = lowerKey "datum"))
    ∧ (∀ (names : List String) (c : String), find_date_column names = some c →
        c ∈ names ∧ (lowerKey c = lowerKey "date" ∨ lowerKey c = lowerKey "datum"))
    ∧ (∀ (pre post : List String) (c : String),
        (∀ b ∈ pre, ¬(lowerKey b = lowerKey "date" ∨ lowerKey b = lowerKey "datum")) →
        (lowerKey c = lowerKey "date" ∨ lowerKey c = lowerKey "datum") →
        find_date_column (pre ++ c :: post) = some c)
    ∧ (∀ t : Table,
        (∃ c ∈ t.names, lowerKey c = lowerKey "date" ∨ lowerKey c = lowerKey "datum") →
        ∃ t', read_and_normalize t = .ok t' ∧ "date" ∈ t'.names)
    ∧ (∀ t : Table, read_and_normalize t = .error "MissingDateColumn" ↔
        ∀ c ∈ t.names, ¬(lowerKey c = lowerKey "date" ∨ lowerKey c = lowerKey "datum")) := by
  refine ⟨find_date_column_none_iff, fun _ _ h => find_date_column_some h, ?_,
    read_and_normalize_ok, read_and_normalize_error_iff⟩
  intro pre post c hpre hc
  unfold find_date_column
  rw [List.find?_append]
  have h1 : List.find?
      (fun c => (candidates.map lowerKey).contains (lowerKey c)) pre = none := by
    rw [List.find?_eq_none]
    intro b hb
    exact fun hd => hpre b hb ((isDateName_iff b).mp hd)
  rw [h1]
  simp only [Option.none_or]
  exact List.find?_cons_of_pos _ ((isDateName_iff c).mpr hc)

/-- C5 witness: a table whose second column is `Datum` selects it (first
match), and the Loader renames it to `date`. -/
theorem loader_date_detection_witness :
    find_date_column (["x"] ++ "Datum" :: []) = some "Datum"
    ∧ ∃ t', read_and_normalize ⟨["x", "Datum"],
        [[Val.str "a", Val.str "1/2/2019"]]⟩ = .ok t' ∧ "date" ∈ t'.names := by
  constructor
  · exact loader_date_detection.2.2.1 ["x"] [] "Datum" (by decide) (by decide)
  · exact loader_date_detection.2.2.2.1 ⟨["x", "Datum"],
      [[Val.str "a", Val.str "1/2/2019"]]⟩ ⟨"Datum", by decide, by decide⟩

/-- C6 (confirmed).  Date parsing takes the first component as the month
whenever it is a valid month (month-then-day, not day-first); the literal
string `"bad-date"` parses to missing rather than raising; and under the
final row sort every row keeps its multiset identity while rows with a
missing date appear only after all rows with a present date. -/
theorem loader_month_first_and_na_last :
    (∀ m d y : ℕ, 1 ≤ m → m ≤ 12 → 1 ≤ d → d ≤ 31 → parseMDY m d y = some (y, m, d))
    ∧ parseDateCell (.str "bad-date") = .na
    ∧ (∀ (names : List String) (rows : List (List Val)),
        (sortRowsMain names rows).Perm rows)
    ∧ (∀ (names : List String) (rows : List (List Val)), "date" ∈ names →
        ∀ (i j : Fin (sortRowsMain names rows).length), i < j →
          rowVal names ((sortRowsMain names rows).get i) "date" = .na →
          rowVal names ((sortRowsMain names rows).get j) "date" = .na) := by
  refine ⟨?_, by decide, ?_, ?_⟩
  · intro m d y h1 h2 h3 h4
    unfold parseMDY
    rw [if_pos ⟨h1, h2, h3, h4⟩]
  · intro names rows
    exact List.perm_insertionSort _ _
  · intro names rows hd i j hij hi
    haveI : IsTotal (List Val) (rowLeMain names) := ⟨fun _ _ => lexLeVal_total _ _⟩
    haveI : IsTrans (List Val) (rowLeMain names) := ⟨fun _ _ _ => lexLeVal_trans _ _ _⟩
    have hs : List.Sorted (rowLeMain names) (sortRowsMain names rows) :=
      List.sorted_insertionSort _ _
    have hk : ∀ r : List Val, mainKey names r =
        rowVal names r "date" ::
          (["warengruppe", "id"].filter (fun c => names.contains c)).map
            (fun c => rowVal names r c) := by
      intro r
      unfold mainKey
      rw [sortKeysMain_eq hd, List.map_cons]
    obtain ⟨u', hu'⟩ := sorted_na_head (mainKey names) hs hij (by rw [hk, hi])
    rw [hk] at hu'
    exact (List.cons_eq_cons.mp hu').1

/-- C6 witness: `3/4/2019` parses as March 4 (month first), and with two
missing-date rows the second sorted row still has a missing date. -/
theorem loader_month_first_witness :
    parseMDY 3 4 2019 = some (2019, 3, 4)
    ∧ rowVal ["date"] ((sortRowsMain ["date"]
        [[Val.na], [Val.na]]).get ⟨1, by decide⟩) "date" = Val.na := by
  constructor
  · exact loader_month_first_and_na_last.1 3 4 2019 (by decide) (by decide)
      (by decide) (by decide)
  · exact loader_month_first_and_na_last.2.2.2 ["date"] [[Val.na], [Val.na]]
      (by decide) ⟨0, by decide⟩ ⟨1, by decide⟩ (by decide) (by decide)

/-- C7 (confirmed).  The Finalizer's column reorder is total and stable on a
duplicate-free merged table: the output column list is a permutation of the
input one (no drops), itself duplicate-free, the non-preferred remainder
keeps its existing relative order, and every column's cells are unchanged
by the reordering. -/
theorem finalizer_reorder_total_stable (t : Table) (h : t.names.Nodup) :
    (reorderCols t.names).Perm t.names
    ∧ (reorderCols t.names).Nodup
    ∧ (t.names.filter (fun c => !preferred.contains c)).Sublist t.names
    ∧ (∀ c ∈ t.names, (reorderTable t).col? c = t.col? c) := by
  have hiff : ∀ a, a ∈ reorderCols t.names ↔ a ∈ t.names := by
    intro a
    unfold reorderCols
    rw [List.mem_append, List.mem_filter, List.mem_filter]
    constructor
    · rintro (⟨_, hc⟩ | ⟨hn, _⟩)
      · exact (contains_iff _ _).mp hc
      · exact hn
    · intro hn
      by_cases hp : a ∈ preferred
      · exact Or.inl ⟨hp, (contains_iff _ _).mpr hn⟩
      · refine Or.inr ⟨hn, ?_⟩
        cases hcb : preferred.contains a with
        | false => rfl
        | true => exact absurd ((contains_iff _ _).mp hcb) hp
  have hnd : (reorderCols t.names).Nodup := by
    unfold reorderCols
    refine List.Nodup.append ((by decide : preferred.Nodup).filter _)
      (h.filter _) ?_
    rw [List.disjoint_left]
    intro a ha1 ha2
    have h1 := (List.mem_filter.mp ha1).1
    have h2 := (List.mem_filter.mp ha2).2
    rw [(contains_iff _ _).mpr h1] at h2
    simp at h2
  refine ⟨(List.perm_ext_iff_of_nodup hnd h).mpr hiff, hnd, List.filter_sublist _, ?_⟩
  intro c hc
  unfold reorderTable Table.col?
  simp only
  rw [if_pos ((contains_iff _ _).mpr ((hiff c).mpr hc)),
    if_pos ((contains_iff _ _).mpr hc)]
  congr 1
  rw [List.map_map]
  apply List.map_congr_left
  intro r _
  exact rowVal_tabulate (fun cc => rowVal t.names r cc) (reorderCols t.names) c
    ((hiff c).mpr hc)

/-- C7 witness: on a two-column table with an extra column the reorder is a
permutation and preserves the `date` column's cells. -/
theorem finalizer_reorder_witness :
    (reorderCols (["Extra", "date"] : List String)).Perm ["Extra", "date"]
    ∧ (reorderTable ⟨["Extra", "date"],
        [[Val.int 5, Val.date (2019, 1, 1)]]⟩).col? "date"
      = (⟨["Extra", "date"], [[Val.int 5, Val.date (2019, 1, 1)]]⟩ : Table).col? "date" := by
  constructor
  · exact (finalizer_reorder_total_stable
      ⟨["Extra", "date"], [[Val.int 5, Val.date (2019, 1, 1)]]⟩ (by decide)).1
  · exact (finalizer_reorder_total_stable
      ⟨["Extra", "date"], [[Val.int 5, Val.date (2019, 1, 1)]]⟩ (by decide)).2.2.2
      "date" (by decide)
